import Mathlib

/-!
# Keypad scanner and debounce FSM (`main/main.c`)

A shallow embedding of `main.c`: the configuration constants, the keypad
layout, the GPIO operations used by `init_keypad` and `scan_keypad`, and the
body of the `while (1)` loop of `app_main` as a step function on an explicit
state record.
-/

namespace Keypad

/-! ## Configuration constants -/

/-- Loop sampling time in ms (`#define LOOP_DELAY_MS 10`). -/
def LOOP_DELAY_MS : Int := 10

/-- Debounce time in ms (`#define DEBOUNCE_TIME 40`). -/
def DEBOUNCE_TIME : Int := 40

/-- Number of keypad rows (`#define NROWS 4`). -/
def NROWS : Nat := 4

/-- Number of keypad columns (`#define NCOLS 4`). -/
def NCOLS : Nat := 4

/-- Keypad active level (`#define ACTIVE 0`, 0 = low). -/
def ACTIVE : Nat := 0

/-- The C expression `!ACTIVE`: logical negation of an integer level. -/
def notLevel (l : Nat) : Nat := if l = 0 then 1 else 0

/-- The sentinel character returned when no key is pressed
(`#define NOPRESS '\0'`). -/
def NOPRESS : Char := Char.ofNat 0

/-- Keypad layout (`char keypad_array[NROWS][NCOLS]`). -/
def keypad_array : List (List Char) :=
  [ ['1', '2', '3', 'A'],
    ['4', '5', '6', 'B'],
    ['7', '8', '9', 'C'],
    ['*', '0', '#', 'D'] ]

/-- The array access `keypad_array[i][j]`. -/
def keyAt (i j : Nat) : Char := (keypad_array.getD i []).getD j NOPRESS

/-! ## Digital I/O

The pin numbers and the four driver calls come from `driver/gpio.h`
(`GPIO_NUM_n` is the integer `n`).  The hardware state keeps, per pin, the
level driven by `gpio_set_level`, the direction and the pull-up enable, and a
chronological record of every level access together with the levels that were
driven at that moment. -/

/-- Pin numbers for rows (`int row_pins[]`). -/
def row_pins : List Nat := [3, 8, 18, 17]

/-- Pin numbers for columns (`int col_pins[]`). -/
def col_pins : List Nat := [16, 15, 7, 6]

/-- The array access `row_pins[i]`. -/
def rowPin (i : Nat) : Nat := row_pins.getD i 0

/-- The array access `col_pins[j]`. -/
def colPin (j : Nat) : Nat := col_pins.getD j 0

/-- Pin direction (`GPIO_MODE_INPUT`, `GPIO_MODE_OUTPUT`). -/
inductive Mode where
  | input
  | output
  deriving DecidableEq, Repr

/-- One recorded level access: whether it was a read (`gpio_get_level`) or a
write (`gpio_set_level`), the pin accessed, and the levels driven on all pins
at the moment of the read, respectively right after the write. -/
structure Access where
  isRead : Bool
  pin : Nat
  levels : Nat → Nat

/-- The state of the pins. -/
structure Hw where
  level : Nat → Nat
  dir : Nat → Option Mode
  pullup : Nat → Bool
  trace : List Access

/-- The electrical environment of the pins: the level read back on a pin as a
function of the levels currently driven. -/
abbrev Wiring := (Nat → Nat) → Nat → Nat

/-- `gpio_set_direction(pin, mode)`. -/
def gpio_set_direction (g : Hw) (pin : Nat) (mode : Mode) : Hw :=
  { g with dir := fun p => if p = pin then some mode else g.dir p }

/-- `gpio_pullup_en(pin)`. -/
def gpio_pullup_en (g : Hw) (pin : Nat) : Hw :=
  { g with pullup := fun p => if p = pin then true else g.pullup p }

/-- `gpio_set_level(pin, lvl)`. -/
def gpio_set_level (g : Hw) (pin : Nat) (lvl : Nat) : Hw :=
  let lv : Nat → Nat := fun p => if p = pin then lvl else g.level p
  { g with level := lv, trace := g.trace ++ [{ isRead := false, pin := pin, levels := lv }] }

/-- `gpio_get_level(pin)`: the level read and the state with the read
recorded. -/
def gpio_get_level (w : Wiring) (g : Hw) (pin : Nat) : Nat × Hw :=
  (w g.level pin,
   { g with trace := g.trace ++ [{ isRead := true, pin := pin, levels := g.level }] })

/-- `init_keypad()`: rows become outputs at the inactive level, columns become
inputs with the pull-up enabled. -/
def init_keypad (g : Hw) : Hw :=
  let g1 := (List.range NROWS).foldl
    (fun g i =>
      gpio_set_level (gpio_set_direction g (rowPin i) Mode.output) (rowPin i) (notLevel ACTIVE))
    g
  (List.range NCOLS).foldl
    (fun g j => gpio_pullup_en (gpio_set_direction g (colPin j) Mode.input) (colPin j))
    g1

/-- The inner `for (j ...)` loop of `scan_keypad` for row `i`, started with
the current value of `new_key`. -/
def scan_cols (w : Wiring) (i : Nat) (st : Char × Hw) : Char × Hw :=
  (List.range NCOLS).foldl
    (fun st j =>
      let r := gpio_get_level w st.2 (colPin j)
      if r.1 = ACTIVE then (keyAt i j, r.2) else (st.1, r.2))
    st

/-- One iteration of the outer `for (i ...)` loop of `scan_keypad`. -/
def scan_row (w : Wiring) (st : Char × Hw) (i : Nat) : Char × Hw :=
  let g1 := gpio_set_level st.2 (rowPin i) ACTIVE
  let st2 := scan_cols w i (st.1, g1)
  (st2.1, gpio_set_level st2.2 (rowPin i) (notLevel ACTIVE))

/-- `scan_keypad()`: the key returned and the pin state on return. -/
def scan_keypad (w : Wiring) (g : Hw) : Char × Hw :=
  (List.range NROWS).foldl (scan_row w) (NOPRESS, g)

/-- Every row pin is driven to the inactive level. -/
def rowsInactive (lv : Nat → Nat) : Prop :=
  ∀ i, i < NROWS → lv (rowPin i) = notLevel ACTIVE

/-- The levels `lv` with row `i` driven active. -/
def drive (lv : Nat → Nat) (i : Nat) : Nat → Nat :=
  fun p => if p = rowPin i then ACTIVE else lv p

/-- The levels `lv` with row `i` driven inactive. -/
def restore (lv : Nat → Nat) (i : Nat) : Nat → Nat :=
  fun p => if p = rowPin i then notLevel ACTIVE else lv p

/-- The levels at the start of iteration `i` of the row loop of a scan started
at levels `lv`: the rows before `i` have been driven inactive. -/
def levelsBefore (lv : Nat → Nat) : Nat → (Nat → Nat)
  | 0 => lv
  | i + 1 => restore (levelsBefore lv i) i

/-- The level read on column `j` while row `i` is driven active, in a scan
started at levels `lv`. -/
def reading (w : Wiring) (lv : Nat → Nat) (i j : Nat) : Nat :=
  w (drive (levelsBefore lv i) i) (colPin j)

/-- The read accesses among a list of accesses. -/
def readsOf (acc : List Access) : List Access := acc.filter (fun a => a.isRead)

/-- The value of `new_key` after the column loop of row `i` run at the levels
`cur`: the highest active column wins, else the previous value `c` is kept. -/
def colsKey (w : Wiring) (cur : Nat → Nat) (i : Nat) (c : Char) : Char :=
  if w cur (colPin 3) = ACTIVE then keyAt i 3
  else if w cur (colPin 2) = ACTIVE then keyAt i 2
  else if w cur (colPin 1) = ACTIVE then keyAt i 1
  else if w cur (colPin 0) = ACTIVE then keyAt i 0
  else c

/-- The accesses of one iteration of the row loop started at levels `lv`: the
row is driven active, the four columns are read, the row is driven inactive
again. -/
def rowAccesses (lv : Nat → Nat) (i : Nat) : List Access :=
  [ { isRead := false, pin := rowPin i, levels := drive lv i },
    { isRead := true, pin := colPin 0, levels := drive lv i },
    { isRead := true, pin := colPin 1, levels := drive lv i },
    { isRead := true, pin := colPin 2, levels := drive lv i },
    { isRead := true, pin := colPin 3, levels := drive lv i },
    { isRead := false, pin := rowPin i, levels := restore lv i } ]

/-- The index of the first row pin that is at the active level in `lv` (the
last row if none of the earlier ones is). -/
def firstActiveRow (lv : Nat → Nat) : Nat :=
  if lv (rowPin 0) = ACTIVE then 0
  else if lv (rowPin 1) = ACTIVE then 1
  else if lv (rowPin 2) = ACTIVE then 2
  else 3

/-- The index of a column pin in `col_pins`. -/
def colIndex (p : Nat) : Nat :=
  if p = colPin 0 then 0 else if p = colPin 1 then 1 else if p = colPin 2 then 2 else 3

/-- A wiring that produces a given table `a` of readings: column `j` reads
`a i j` while row `i` is the row driven active. -/
def wiringOf (a : Nat → Nat → Nat) : Wiring :=
  fun lv p => a (firstActiveRow lv) (colIndex p)

/-- The accesses recorded during a call of `scan_keypad` started in `g`. -/
def scanAccesses (w : Wiring) (g : Hw) : List Access :=
  (scan_keypad w g).2.trace.drop g.trace.length

/-- The wiring of a keypad whose only closed switch is the one at row `i`,
column `j`: column `j` follows the level of row `i`, every other pin is pulled
to the inactive level. -/
def singleKey (i j : Nat) : Wiring :=
  fun lv p => if p = colPin j then lv (rowPin i) else notLevel ACTIVE

/-- A pin state with nothing configured and every pin at level 1. -/
def Hw.idle : Hw :=
  { level := fun _ => 1, dir := fun _ => none, pullup := fun _ => false, trace := [] }

/-! ## The debounce FSM of `app_main` -/

/-- FSM states (`State_t`). -/
inductive State_t where
  | Wait_for_press
  | Debounce
  | Wait_for_release
  deriving DecidableEq, Repr

/-- The FSM variables of `app_main` that live across loop iterations
(`new_key` and `timed_out` are recomputed at the top of every iteration). -/
structure Fsm where
  state : State_t
  last_key : Char
  time : Int
  deriving DecidableEq, Repr

/-- The FSM variables as initialised before the loop. -/
def Fsm.init : Fsm :=
  { state := State_t.Wait_for_press, last_key := NOPRESS, time := 0 }

/-- One iteration of the `while (1)` loop, given the value `new_key` returned
by `scan_keypad()` in that iteration.  The second component is the character
printed by `printf("Key Pressed: %c\n", last_key)`, if the call is reached. -/
def step (s : Fsm) (new_key : Char) : Fsm × Option Char :=
  let timed_out : Bool := decide (s.time ≥ DEBOUNCE_TIME)
  match s.state with
  | State_t.Wait_for_press =>
      if new_key ≠ NOPRESS then
        ({ state := State_t.Debounce, last_key := new_key, time := 0 }, none)
      else
        ({ s with state := State_t.Wait_for_press }, none)
  | State_t.Debounce =>
      if timed_out then
        if new_key = s.last_key then
          ({ s with state := State_t.Wait_for_release }, some s.last_key)
        else
          ({ s with state := State_t.Wait_for_press }, none)
      else
        ({ s with time := s.time + LOOP_DELAY_MS }, none)
  | State_t.Wait_for_release =>
      if new_key = NOPRESS then
        ({ s with state := State_t.Wait_for_press }, none)
      else
        ({ s with state := State_t.Wait_for_release }, none)

/-- Runs the loop body once per element of `scans` (the successive results of
`scan_keypad()`), returning the final FSM variables and, tick by tick, what
was printed. -/
def run (s : Fsm) : List Char → Fsm × List (Option Char)
  | [] => (s, [])
  | k :: ks =>
      let r := step s k
      let rest := run r.1 ks
      (rest.1, r.2 :: rest.2)

/-- Number of confirmed-press events in an output stream. -/
def countEvents (out : List (Option Char)) : Nat :=
  (out.filter Option.isSome).length

/-- The characters of the keymap, row by row. -/
def keymapKeys : List Char := keypad_array.flatten

/-- One iteration of the `while (1)` loop of `app_main` on the pins and the FSM
variables: the scan, then the FSM update (`vTaskDelay` only lets time pass).
The wiring `w` is the electrical environment during this iteration. -/
def loop_body (w : Wiring) (st : Hw × Fsm) : (Hw × Fsm) × Option Char :=
  let r := scan_keypad w st.1
  let o := step st.2 r.1
  ((r.2, o.1), o.2)

/-- The iterations of the loop for the successive wirings `ws`, from a given
state of the pins and the FSM variables. -/
def loop_from (st : Hw × Fsm) : List Wiring → (Hw × Fsm) × List (Option Char)
  | [] => (st, [])
  | w :: ws =>
      let r := loop_body w st
      let rest := loop_from r.1 ws
      (rest.1, r.2 :: rest.2)

/-- `app_main` started on the pins `g`, observed for as many loop iterations as
there are wirings in `ws`. -/
def app_main (g : Hw) (ws : List Wiring) : (Hw × Fsm) × List (Option Char) :=
  loop_from (init_keypad g, Fsm.init) ws

/-! ## Lemmas on the FSM -/

theorem key_ne_NOPRESS {k : Char} (hk : k ∈ keymapKeys) : k ≠ NOPRESS := by
  intro h
  subst h
  revert hk
  decide

theorem run_nil (s : Fsm) : run s [] = (s, []) := rfl

theorem run_cons (s : Fsm) (k : Char) (ks : List Char) :
    run s (k :: ks) = ((run (step s k).1 ks).1, (step s k).2 :: (run (step s k).1 ks).2) := rfl

theorem run_append (s : Fsm) (xs ys : List Char) :
    run s (xs ++ ys)
      = ((run (run s xs).1 ys).1, (run s xs).2 ++ (run (run s xs).1 ys).2) := by
  induction xs generalizing s with
  | nil => simp [run_nil]
  | cons x xs ih => simp [run_cons, ih]

theorem run_length (s : Fsm) (ks : List Char) : (run s ks).2.length = ks.length := by
  induction ks generalizing s with
  | nil => rfl
  | cons k ks ih => simp [run_cons, ih]

theorem countEvents_nil : countEvents [] = 0 := rfl

theorem countEvents_append (xs ys : List (Option Char)) :
    countEvents (xs ++ ys) = countEvents xs + countEvents ys := by
  simp [countEvents]

theorem countEvents_replicate_none (n : Nat) : countEvents (List.replicate n none) = 0 := by
  induction n with
  | zero => rfl
  | succ n ih => simp [countEvents, List.replicate_succ]

theorem countEvents_none_cons (xs : List (Option Char)) :
    countEvents (none :: xs) = countEvents xs := by
  simp [countEvents]

theorem countEvents_some_cons (c : Char) (xs : List (Option Char)) :
    countEvents (some c :: xs) = countEvents xs + 1 := by
  simp [countEvents]

/-- A step in `Wait_for_press` with a key reading. -/
theorem step_press (s : Fsm) (k : Char) (hs : s.state = State_t.Wait_for_press)
    (hk : k ≠ NOPRESS) :
    step s k = ({ state := State_t.Debounce, last_key := k, time := 0 }, none) := by
  simp [step, hs, hk]

/-- A step in `Wait_for_press` with no key. -/
theorem step_idle (s : Fsm) (hs : s.state = State_t.Wait_for_press) :
    step s NOPRESS = (s, none) := by
  cases s with
  | mk st lk t =>
    simp only at hs
    subst hs
    simp [step]

/-- A step in `Debounce` before the timer has reached the threshold. -/
theorem step_debounce_wait (s : Fsm) (x : Char) (hs : s.state = State_t.Debounce)
    (ht : s.time < DEBOUNCE_TIME) :
    step s x = ({ s with time := s.time + LOOP_DELAY_MS }, none) := by
  have h : ¬ (DEBOUNCE_TIME ≤ s.time) := not_le.mpr ht
  simp [step, hs, h]

/-- A step in `Debounce` once the timer has reached the threshold, same key. -/
theorem step_debounce_confirm (s : Fsm) (hs : s.state = State_t.Debounce)
    (ht : DEBOUNCE_TIME ≤ s.time) :
    step s s.last_key = ({ s with state := State_t.Wait_for_release }, some s.last_key) := by
  simp [step, hs, ht]

/-- A step in `Debounce` once the timer has reached the threshold, other
reading. -/
theorem step_debounce_reject (s : Fsm) (x : Char) (hs : s.state = State_t.Debounce)
    (ht : DEBOUNCE_TIME ≤ s.time) (hx : x ≠ s.last_key) :
    step s x = ({ s with state := State_t.Wait_for_press }, none) := by
  simp [step, hs, ht, hx]

/-- A step in `Wait_for_release` with a key reading. -/
theorem step_held (s : Fsm) (x : Char) (hs : s.state = State_t.Wait_for_release)
    (hx : x ≠ NOPRESS) : step s x = (s, none) := by
  cases s with
  | mk st lk t =>
    simp only at hs
    subst hs
    simp [step, hx]

/-- A step in `Wait_for_release` with no key. -/
theorem step_release (s : Fsm) (hs : s.state = State_t.Wait_for_release) :
    step s NOPRESS = ({ s with state := State_t.Wait_for_press }, none) := by
  simp [step, hs]

/-- While idle, any number of `NOPRESS` readings changes nothing. -/
theorem run_idle (s : Fsm) (hs : s.state = State_t.Wait_for_press) (n : Nat) :
    run s (List.replicate n NOPRESS) = (s, List.replicate n none) := by
  induction n with
  | zero => rfl
  | succ n ih => simp [List.replicate_succ, run_cons, step_idle s hs, ih]

/-- While waiting for release, key readings change nothing. -/
theorem run_held (s : Fsm) (hs : s.state = State_t.Wait_for_release) (ks : List Char)
    (hks : ∀ x ∈ ks, x ≠ NOPRESS) :
    run s ks = (s, List.replicate ks.length none) := by
  induction ks with
  | nil => rfl
  | cons k ks ih =>
    have hk : k ≠ NOPRESS := hks k (List.mem_cons_self k ks)
    have hrest : ∀ x ∈ ks, x ≠ NOPRESS := fun x hx => hks x (List.mem_cons_of_mem k hx)
    simp [run_cons, step_held s k hs hk, ih hrest, List.replicate_succ]

/-- Up to four ticks after entering `Debounce` only advance the timer,
whatever is read. -/
theorem run_debounce_ticks (k : Char) (l : List Char) (hl : l.length ≤ 4) :
    run { state := State_t.Debounce, last_key := k, time := 0 } l
      = ({ state := State_t.Debounce, last_key := k, time := 10 * (l.length : Int) },
         List.replicate l.length none) := by
  match l, hl with
  | [], _ => rfl
  | [a], _ => simp [run, step, DEBOUNCE_TIME, LOOP_DELAY_MS, List.replicate]
  | [a, b], _ => simp [run, step, DEBOUNCE_TIME, LOOP_DELAY_MS, List.replicate]
  | [a, b, c], _ => simp [run, step, DEBOUNCE_TIME, LOOP_DELAY_MS, List.replicate]
  | [a, b, c, d], _ => simp [run, step, DEBOUNCE_TIME, LOOP_DELAY_MS, List.replicate]
  | _ :: _ :: _ :: _ :: _ :: _, h => simp at h

/-- The four ticks after entering `Debounce` bring the timer to the
threshold, whatever is read. -/
theorem run_debounce_window (k : Char) (mid : List Char) (hmid : mid.length = 4) :
    run { state := State_t.Debounce, last_key := k, time := 0 } mid
      = ({ state := State_t.Debounce, last_key := k, time := 40 }, List.replicate 4 none) := by
  rw [run_debounce_ticks k mid (le_of_eq hmid), hmid]
  rfl

/-- Feeding the same key `k` from a state that is idle, debouncing `k`, or
waiting for release: at most one event, none when already waiting for release,
and afterwards the FSM either waits for release or has emitted nothing. -/
theorem run_hold (k : Char) (hk : k ≠ NOPRESS) (n : Nat) (s : Fsm)
    (hs : s.state = State_t.Wait_for_press
      ∨ (s.state = State_t.Debounce ∧ s.last_key = k)
      ∨ s.state = State_t.Wait_for_release) :
    countEvents (run s (List.replicate n k)).2 ≤ 1
      ∧ ((run s (List.replicate n k)).1.state = State_t.Wait_for_release
        ∨ (countEvents (run s (List.replicate n k)).2 = 0
          ∧ ((run s (List.replicate n k)).1.state = State_t.Wait_for_press
            ∨ ((run s (List.replicate n k)).1.state = State_t.Debounce
              ∧ (run s (List.replicate n k)).1.last_key = k)))) := by
  induction n generalizing s with
  | zero =>
    rw [List.replicate_zero, run_nil]
    refine ⟨Nat.zero_le _, ?_⟩
    rcases hs with h | h | h
    · exact Or.inr ⟨rfl, Or.inl h⟩
    · exact Or.inr ⟨rfl, Or.inr h⟩
    · exact Or.inl h
  | succ n ih =>
    rw [List.replicate_succ, run_cons]
    rcases hs with h | ⟨h, hl⟩ | h
    · rw [step_press s k h hk]
      simp only [countEvents_none_cons]
      exact ih _ (Or.inr (Or.inl ⟨rfl, rfl⟩))
    · by_cases ht : s.time < DEBOUNCE_TIME
      · rw [step_debounce_wait s k h ht]
        simp only [countEvents_none_cons]
        exact ih _ (Or.inr (Or.inl ⟨h, hl⟩))
      · have ht2 : DEBOUNCE_TIME ≤ s.time := not_lt.mp ht
        have hstep := step_debounce_confirm s h ht2
        rw [hl] at hstep
        rw [hstep]
        dsimp only
        have hr := run_held { state := State_t.Wait_for_release, last_key := k, time := s.time }
          rfl (List.replicate n k) (fun x hx => by rw [List.eq_of_mem_replicate hx]; exact hk)
        rw [hr]
        simp [countEvents_some_cons, countEvents_replicate_none]
    · rw [step_held s k h hk]
      simp only [countEvents_none_cons]
      exact ih _ (Or.inr (Or.inr h))

/-- With no key read, a state that is not debouncing the sentinel emits
nothing, however long the stream. -/
theorem run_nokey_silent (n : Nat) (s : Fsm)
    (hs : s.state = State_t.Debounce → s.last_key ≠ NOPRESS) :
    (run s (List.replicate n NOPRESS)).2 = List.replicate n none := by
  induction n generalizing s with
  | zero => rfl
  | succ n ih =>
    rw [List.replicate_succ, run_cons, List.replicate_succ]
    cases hst : s.state with
    | Wait_for_press =>
      rw [step_idle s hst]
      dsimp only
      rw [ih s hs]
    | Wait_for_release =>
      rw [step_release s hst]
      dsimp only
      rw [ih _ (fun h => by simp at h)]
    | Debounce =>
      by_cases ht : s.time < DEBOUNCE_TIME
      · rw [step_debounce_wait s _ hst ht]
        dsimp only
        rw [ih { s with time := s.time + LOOP_DELAY_MS } (fun _ => hs hst)]
      · rw [step_debounce_reject s _ hst (not_lt.mp ht) (Ne.symm (hs hst))]
        dsimp only
        rw [ih _ (fun h => by simp at h)]

/-- The first six ticks of a steady key from an idle state. -/
theorem run_six (s : Fsm) (hs : s.state = State_t.Wait_for_press) (k : Char)
    (hk : k ≠ NOPRESS) :
    run s (List.replicate 6 k)
      = ({ state := State_t.Wait_for_release, last_key := k, time := 40 },
         [none, none, none, none, none, some k]) := by
  have h6 : List.replicate 6 k = k :: ([k, k, k, k] ++ [k]) := rfl
  rw [h6, run_cons, step_press s k hs hk, run_append, run_debounce_window k [k, k, k, k] rfl]
  simp [run, step, DEBOUNCE_TIME]

/-! ## The debounce FSM: stream properties -/

/-- C1, as stated, fails: with a steady `'5'` on the ticks t = 0, 10, 20, 30,
40 ms from the initial state, the tick at t = 40 ms does not emit and does not
reach `Wait_for_release`; all five ticks are silent and the FSM is still in
`Debounce`, its timer having just reached 40. -/
theorem threshold_tick40_silent :
    ¬ ((run Fsm.init (List.replicate 5 '5')).2 = [none, none, none, none, some '5']
        ∧ (run Fsm.init (List.replicate 5 '5')).1.state = State_t.Wait_for_release)
      ∧ run Fsm.init (List.replicate 5 '5')
          = ({ state := State_t.Debounce, last_key := '5', time := 40 },
             [none, none, none, none, none]) := by
  decide

/-- C1 (amended): from the initial state, a steady `'5'` emits nothing on the
ticks t = 0..40 ms, the timer reaching `DEBOUNCE_TIME` on the tick at
t = 40 ms; the next tick (t = 50 ms), the first one whose threshold test
`time >= DEBOUNCE_TIME` is true, emits `'5'` and moves to
`Wait_for_release`. -/
theorem threshold_boundary :
    (run Fsm.init (List.replicate 5 '5')).2 = List.replicate 5 none
      ∧ (run Fsm.init (List.replicate 5 '5')).1.state = State_t.Debounce
      ∧ (run Fsm.init (List.replicate 4 '5')).1.time < DEBOUNCE_TIME
      ∧ (run Fsm.init (List.replicate 5 '5')).1.time = DEBOUNCE_TIME
      ∧ step (run Fsm.init (List.replicate 5 '5')).1 '5'
          = ({ state := State_t.Wait_for_release, last_key := '5', time := 40 }, some '5')
      ∧ (run Fsm.init (List.replicate 6 '5')).2 = List.replicate 5 none ++ [some '5']
      ∧ (run Fsm.init (List.replicate 6 '5')).1.state = State_t.Wait_for_release := by
  decide

/-- C2: for a key `k` of the keymap, the stream `NOPRESS^a, k^b, NOPRESS^c`
(with `b ≥ 1`) fed from the initial state produces at most one event. -/
theorem no_double_report (k : Char) (hk : k ∈ keymapKeys) (a b c : Nat) (_hb : 1 ≤ b) :
    countEvents (run Fsm.init
      (List.replicate a NOPRESS ++ List.replicate b k ++ List.replicate c NOPRESS)).2 ≤ 1 := by
  have hk0 : k ≠ NOPRESS := key_ne_NOPRESS hk
  rw [List.append_assoc, run_append, run_idle Fsm.init rfl a, run_append]
  simp only [countEvents_append, countEvents_replicate_none, Nat.zero_add]
  obtain ⟨hle, hend⟩ := run_hold k hk0 b Fsm.init (Or.inl rfl)
  have hsil := run_nokey_silent c (run Fsm.init (List.replicate b k)).1 (by
    intro hd
    rcases hend with h | ⟨_, h | ⟨_, h⟩⟩
    · rw [h] at hd; cases hd
    · rw [h] at hd; cases hd
    · rw [h]; exact hk0)
  rw [hsil, countEvents_replicate_none]
  exact hle

/-- C2 witness: `'5'` held for seven ticks between two idle stretches. -/
theorem no_double_report_witness :
    '5' ∈ keymapKeys ∧ 1 ≤ 7
      ∧ countEvents (run Fsm.init
          (List.replicate 2 NOPRESS ++ List.replicate 7 '5' ++ List.replicate 3 NOPRESS)).2 ≤ 1 :=
  ⟨by decide, by decide, no_double_report '5' (by decide) 2 7 3 (by decide)⟩

/-- C3: for a key `k` of the keymap, `k` read on `n ≥ 6` consecutive ticks
from the initial state and then `NOPRESS` (on `m ≥ 1` ticks) produces exactly
one event, every event carries `k`, and the FSM ends in `Wait_for_press`. -/
theorem one_event_per_held_press (k : Char) (hk : k ∈ keymapKeys) (n m : Nat)
    (hn : 6 ≤ n) (hm : 1 ≤ m) :
    countEvents (run Fsm.init (List.replicate n k ++ List.replicate m NOPRESS)).2 = 1
      ∧ (∀ c, some c ∈ (run Fsm.init (List.replicate n k ++ List.replicate m NOPRESS)).2
          → c = k)
      ∧ (run Fsm.init (List.replicate n k ++ List.replicate m NOPRESS)).2
          = List.replicate 5 none ++ [some k] ++ List.replicate (n - 6 + m) none
      ∧ (run Fsm.init (List.replicate n k ++ List.replicate m NOPRESS)).1.state
          = State_t.Wait_for_press := by
  have hk0 : k ≠ NOPRESS := key_ne_NOPRESS hk
  obtain ⟨n', rfl⟩ : ∃ n', n = 6 + n' := ⟨n - 6, by omega⟩
  obtain ⟨m', rfl⟩ : ∃ m', m = m' + 1 := ⟨m - 1, by omega⟩
  have hrun : run Fsm.init (List.replicate (6 + n') k ++ List.replicate (m' + 1) NOPRESS)
      = ({ state := State_t.Wait_for_press, last_key := k, time := 40 },
         List.replicate 5 none ++ [some k] ++ List.replicate (6 + n' - 6 + (m' + 1)) none) := by
    rw [List.replicate_add, List.append_assoc, run_append, run_six Fsm.init rfl k hk0,
      run_append]
    rw [run_held _ rfl (List.replicate n' k)
      (fun x hx => by rw [List.eq_of_mem_replicate hx]; exact hk0)]
    rw [List.replicate_succ, run_cons, step_release _ rfl, run_idle _ rfl]
    have e : 6 + n' - 6 + (m' + 1) = n' + (m' + 1) := by omega
    simp [e, List.replicate_add, List.replicate_succ]
  rw [hrun]
  refine ⟨?_, ?_, rfl, rfl⟩
  · rw [countEvents_append, countEvents_append, countEvents_replicate_none,
      countEvents_replicate_none, countEvents_some_cons, countEvents_nil]
  · intro c hc
    simp at hc
    exact hc

/-- C3 witness: `'5'` held for six ticks, then one `NOPRESS`. -/
theorem one_event_per_held_press_witness :
    countEvents (run Fsm.init (List.replicate 6 '5' ++ List.replicate 1 NOPRESS)).2 = 1
      ∧ (∀ c, some c ∈ (run Fsm.init (List.replicate 6 '5' ++ List.replicate 1 NOPRESS)).2
          → c = '5')
      ∧ (run Fsm.init (List.replicate 6 '5' ++ List.replicate 1 NOPRESS)).2
          = List.replicate 5 none ++ [some '5'] ++ List.replicate (6 - 6 + 1) none
      ∧ (run Fsm.init (List.replicate 6 '5' ++ List.replicate 1 NOPRESS)).1.state
          = State_t.Wait_for_press :=
  one_event_per_held_press '5' (by decide) 6 1 (by decide) (by decide)

/-- C4, as stated, fails: the FSM enters `Debounce` on `'1'`, the very next
reading is `'2'` (a change inside the window, before the threshold has
elapsed), the FSM stays in `Debounce` for the five ticks after the first, and
still `'1'` is confirmed on the tick on which it leaves `Debounce`. -/
theorem glitch_inside_window_confirmed :
    (step Fsm.init '1').1.state = State_t.Debounce
      ∧ '2' ≠ '1'
      ∧ (run Fsm.init ['1', '2', '1', '1', '1']).1.state = State_t.Debounce
      ∧ (run Fsm.init ['1', '2', '1', '1', '1']).1.time = DEBOUNCE_TIME
      ∧ run Fsm.init ['1', '2', '1', '1', '1', '1']
          = ({ state := State_t.Wait_for_release, last_key := '1', time := 40 },
             [none, none, none, none, none, some '1']) := by
  decide

/-- C4 (amended): for a key `k` of the keymap, when the FSM enters `Debounce`
on `k` from any `Wait_for_press` state and the reading on the fifth tick after
that (the first tick whose threshold test is true) differs from `k`, then,
whatever is read on the four ticks in between, the FSM is in `Debounce` after
the entering tick and after each of those four ticks, no event is emitted on
any of the six ticks, and the sixth tick returns to `Wait_for_press`. -/
theorem glitch_rejection (s : Fsm) (hs : s.state = State_t.Wait_for_press)
    (k : Char) (hk : k ∈ keymapKeys) (mid : List Char) (hmid : mid.length = 4)
    (x : Char) (hx : x ≠ k) :
    (∀ n, n ≤ 4 → (run s (k :: mid.take n)).1.state = State_t.Debounce)
      ∧ (run s (k :: (mid ++ [x]))).2 = List.replicate 6 none
      ∧ (run s (k :: (mid ++ [x]))).1.state = State_t.Wait_for_press := by
  have hk0 : k ≠ NOPRESS := key_ne_NOPRESS hk
  refine ⟨?_, ?_, ?_⟩
  · intro n hn
    rw [run_cons, step_press s k hs hk0]
    dsimp only
    rw [run_debounce_ticks k (mid.take n) (by rw [List.length_take]; omega)]
  · rw [run_cons, step_press s k hs hk0, run_append]
    dsimp only
    rw [run_debounce_window k mid hmid]
    dsimp only
    rw [run_cons, step_debounce_reject _ x rfl (by simp [DEBOUNCE_TIME]) hx]
    rfl
  · rw [run_cons, step_press s k hs hk0, run_append]
    dsimp only
    rw [run_debounce_window k mid hmid]
    dsimp only
    rw [run_cons, step_debounce_reject _ x rfl (by simp [DEBOUNCE_TIME]) hx]
    rfl

/-- C4 witness: `'1'` for one tick, then `'2'` for the remainder of the
window. -/
theorem glitch_rejection_witness :
    Fsm.init.state = State_t.Wait_for_press ∧ '1' ∈ keymapKeys
      ∧ ['2', '2', '2', '2'].length = 4 ∧ '2' ≠ '1'
      ∧ (∀ n, n ≤ 4 → (run Fsm.init ('1' :: ['2', '2', '2', '2'].take n)).1.state
          = State_t.Debounce)
      ∧ (run Fsm.init ('1' :: (['2', '2', '2', '2'] ++ ['2']))).2 = List.replicate 6 none
      ∧ (run Fsm.init ('1' :: (['2', '2', '2', '2'] ++ ['2']))).1.state
          = State_t.Wait_for_press :=
  ⟨rfl, by decide, rfl, by decide,
    glitch_rejection Fsm.init rfl '1' (by decide) ['2', '2', '2', '2'] rfl '2' (by decide)⟩

/-- C5: from any state in `Wait_for_release`, every stream of key readings
(no `NOPRESS`) leaves the FSM variables unchanged, hence in
`Wait_for_release`, and emits nothing on any tick; a step leaves
`Wait_for_release` exactly when the reading is `NOPRESS`, and then it moves to
`Wait_for_press` without emitting. -/
theorem release_gating (s : Fsm) (hs : s.state = State_t.Wait_for_release) :
    (∀ ks : List Char, (∀ x ∈ ks, x ≠ NOPRESS) →
        (run s ks).1 = s ∧ (run s ks).1.state = State_t.Wait_for_release
          ∧ (run s ks).2 = List.replicate ks.length none)
      ∧ (∀ x, (step s x).1.state ≠ State_t.Wait_for_release ↔ x = NOPRESS)
      ∧ (∀ x, (step s x).2 = none)
      ∧ (step s NOPRESS).1.state = State_t.Wait_for_press := by
  refine ⟨?_, ?_, ?_, ?_⟩
  · intro ks hks
    rw [run_held s hs ks hks]
    exact ⟨rfl, hs, rfl⟩
  · intro x
    by_cases hx : x = NOPRESS
    · subst hx
      rw [step_release s hs]
      simp
    · rw [step_held s x hs hx]
      simp [hs, hx]
  · intro x
    by_cases hx : x = NOPRESS
    · subst hx
      rw [step_release s hs]
    · rw [step_held s x hs hx]
  · rw [step_release s hs]

/-- C5 witness: waiting for the release of `'1'`, the readings switch from
`'1'` directly to `'2'`. -/
theorem release_gating_witness :
    (∀ ks : List Char, (∀ x ∈ ks, x ≠ NOPRESS) →
        (run { state := State_t.Wait_for_release, last_key := '1', time := 40 } ks).1
            = { state := State_t.Wait_for_release, last_key := '1', time := 40 }
          ∧ (run { state := State_t.Wait_for_release, last_key := '1', time := 40 } ks).1.state
            = State_t.Wait_for_release
          ∧ (run { state := State_t.Wait_for_release, last_key := '1', time := 40 } ks).2
            = List.replicate ks.length none)
      ∧ (∀ x, (step { state := State_t.Wait_for_release, last_key := '1', time := 40 } x).1.state
            ≠ State_t.Wait_for_release ↔ x = NOPRESS)
      ∧ (∀ x, (step { state := State_t.Wait_for_release, last_key := '1', time := 40 } x).2
            = none)
      ∧ (step { state := State_t.Wait_for_release, last_key := '1', time := 40 } NOPRESS).1.state
          = State_t.Wait_for_press :=
  release_gating { state := State_t.Wait_for_release, last_key := '1', time := 40 } rfl

/-- C6: from the initial state, after any number `n` of `NOPRESS` readings
the FSM is still in `Wait_for_press` (all its variables are unchanged) and
every one of the `n` ticks emitted nothing. -/
theorem idle_stability (n : Nat) :
    (run Fsm.init (List.replicate n NOPRESS)).1.state = State_t.Wait_for_press
      ∧ (run Fsm.init (List.replicate n NOPRESS)).1 = Fsm.init
      ∧ (run Fsm.init (List.replicate n NOPRESS)).2 = List.replicate n none := by
  rw [run_idle Fsm.init rfl n]
  exact ⟨rfl, rfl, rfl⟩

/-! ## Lemmas on the scan -/

theorem range_four : List.range 4 = [0, 1, 2, 3] := rfl

/-- Restoring a row that was driven active is restoring it directly. -/
theorem restore_drive (lv : Nat → Nat) (i : Nat) :
    (fun p => if p = rowPin i then notLevel ACTIVE else drive lv i p) = restore lv i := by
  funext p
  by_cases hp : p = rowPin i
  · simp [hp, restore]
  · simp [hp, drive, restore]

/-- Restoring a row that is inactive changes nothing. -/
theorem restore_inactive (lv : Nat → Nat) (i : Nat) (h : lv (rowPin i) = notLevel ACTIVE) :
    restore lv i = lv := by
  funext p
  by_cases hp : p = rowPin i
  · simp [hp, restore, h]
  · simp [hp, restore]

/-- Started with every row inactive, the levels at the start of each row
iteration are the initial ones. -/
theorem levelsBefore_inactive (lv : Nat → Nat) (h : rowsInactive lv) (i : Nat)
    (hi : i ≤ NROWS) : levelsBefore lv i = lv := by
  induction i with
  | zero => rfl
  | succ i ih =>
    have e := ih (Nat.le_of_succ_le hi)
    simp only [levelsBefore]
    rw [e]
    exact restore_inactive lv i (h i hi)

/-- The column loop records four reads and leaves the levels alone; the key it
yields is `colsKey`. -/
theorem scan_cols_eq (w : Wiring) (i : Nat) (c : Char) (g : Hw) :
    scan_cols w i (c, g)
      = (colsKey w g.level i c,
         { g with trace := g.trace ++
            [ { isRead := true, pin := colPin 0, levels := g.level },
              { isRead := true, pin := colPin 1, levels := g.level },
              { isRead := true, pin := colPin 2, levels := g.level },
              { isRead := true, pin := colPin 3, levels := g.level } ] }) := by
  simp only [scan_cols, NCOLS, range_four, List.foldl, gpio_get_level, colsKey]
  split_ifs <;> simp

/-- One iteration of the row loop: the key comes from the readings taken with
row `i` driven active, the row is inactive afterwards, and the accesses are
those of `rowAccesses`. -/
theorem scan_row_eq (w : Wiring) (c : Char) (lv : Nat → Nat) (d : Nat → Option Mode)
    (pu : Nat → Bool) (tr : List Access) (i : Nat) :
    scan_row w (c, { level := lv, dir := d, pullup := pu, trace := tr }) i
      = (colsKey w (drive lv i) i c,
         { level := restore lv i, dir := d, pullup := pu, trace := tr ++ rowAccesses lv i }) := by
  have hcols := scan_cols_eq w i c
    (gpio_set_level { level := lv, dir := d, pullup := pu, trace := tr } (rowPin i) ACTIVE)
  have hr : (fun p => if p = rowPin i then notLevel ACTIVE
      else if p = rowPin i then ACTIVE else lv p) = restore lv i := restore_drive lv i
  simp only [scan_row]
  rw [hcols]
  simp only [gpio_set_level, rowAccesses]
  rw [hr]
  simp only [List.append_assoc, List.singleton_append, List.cons_append, List.nil_append]
  rfl

/-- The whole scan. -/
theorem scan_keypad_eq (w : Wiring) (g : Hw) :
    scan_keypad w g
      = (colsKey w (drive (levelsBefore g.level 3) 3) 3
          (colsKey w (drive (levelsBefore g.level 2) 2) 2
            (colsKey w (drive (levelsBefore g.level 1) 1) 1
              (colsKey w (drive (levelsBefore g.level 0) 0) 0 NOPRESS))),
         { g with
            level := levelsBefore g.level 4,
            trace := g.trace ++ (rowAccesses (levelsBefore g.level 0) 0
              ++ (rowAccesses (levelsBefore g.level 1) 1
              ++ (rowAccesses (levelsBefore g.level 2) 2
              ++ rowAccesses (levelsBefore g.level 3) 3))) }) := by
  cases g with
  | mk lv d pu tr =>
    simp only [scan_keypad, NROWS, range_four, List.foldl]
    rw [scan_row_eq, scan_row_eq, scan_row_eq, scan_row_eq]
    simp only [List.append_assoc, levelsBefore]

/-- The whole scan, started with every row inactive. -/
theorem scan_keypad_eq_inactive (w : Wiring) (g : Hw) (h : rowsInactive g.level) :
    scan_keypad w g
      = (colsKey w (drive g.level 3) 3 (colsKey w (drive g.level 2) 2
          (colsKey w (drive g.level 1) 1 (colsKey w (drive g.level 0) 0 NOPRESS))),
         { g with trace := g.trace ++ (rowAccesses g.level 0 ++ (rowAccesses g.level 1
            ++ (rowAccesses g.level 2 ++ rowAccesses g.level 3))) }) := by
  rw [scan_keypad_eq]
  rw [levelsBefore_inactive g.level h 0 (by decide), levelsBefore_inactive g.level h 1 (by decide),
    levelsBefore_inactive g.level h 2 (by decide), levelsBefore_inactive g.level h 3 (by decide),
    levelsBefore_inactive g.level h 4 (by decide)]

/-- With every row inactive in `lv`, row `i2` is active in `drive lv i1` exactly
when `i2 = i1`. -/
theorem drive_row (lv : Nat → Nat) (h : rowsInactive lv) (i1 i2 : Nat)
    (h1 : i1 < NROWS) (h2 : i2 < NROWS) :
    drive lv i1 (rowPin i2) = ACTIVE ↔ i2 = i1 := by
  have hi := h i2 h2
  simp only [NROWS] at h1 h2
  interval_cases i1 <;> interval_cases i2 <;>
    simp_all [drive, rowPin, row_pins, ACTIVE, notLevel]

/-- No row is active in levels where every row is inactive. -/
theorem rowsInactive_not_active (lv : Nat → Nat) (h : rowsInactive lv) (i : Nat)
    (hi : i < NROWS) : lv (rowPin i) ≠ ACTIVE := by
  rw [h i hi]
  decide

/-- After `init_keypad` every row is inactive. -/
theorem init_keypad_rows (g : Hw) : rowsInactive (init_keypad g).level := by
  intro i hi
  simp only [NROWS] at hi
  simp only [init_keypad, NROWS, NCOLS, range_four, List.foldl, gpio_set_level,
    gpio_set_direction, gpio_pullup_en]
  interval_cases i <;> simp [rowPin, row_pins]

/-- No entry of the keymap is the sentinel. -/
theorem keyAt_ne_NOPRESS (i j : Nat) (hi : i < NROWS) (hj : j < NCOLS) :
    keyAt i j ≠ NOPRESS := by
  simp only [NROWS, NCOLS] at hi hj
  interval_cases i <;> interval_cases j <;> decide

/-- A row without an active reading keeps the previous key. -/
theorem colsKey_none (w : Wiring) (cur : Nat → Nat) (i : Nat) (c : Char)
    (h : ∀ j, j < NCOLS → w cur (colPin j) ≠ ACTIVE) : colsKey w cur i c = c := by
  simp only [colsKey]
  rw [if_neg (h 3 (by decide)), if_neg (h 2 (by decide)), if_neg (h 1 (by decide)),
    if_neg (h 0 (by decide))]

/-- A row with an active reading yields the key of its last active column. -/
theorem colsKey_last (w : Wiring) (cur : Nat → Nat) (i : Nat) (c : Char) (j : Nat)
    (hj : j < NCOLS) (hact : w cur (colPin j) = ACTIVE)
    (hlast : ∀ j2, j2 < NCOLS → j < j2 → w cur (colPin j2) ≠ ACTIVE) :
    colsKey w cur i c = keyAt i j := by
  simp only [NCOLS] at hj hlast
  simp only [colsKey]
  interval_cases j
  · rw [if_neg (hlast 3 (by decide) (by decide)), if_neg (hlast 2 (by decide) (by decide)),
      if_neg (hlast 1 (by decide) (by decide)), if_pos hact]
  · rw [if_neg (hlast 3 (by decide) (by decide)), if_neg (hlast 2 (by decide) (by decide)),
      if_pos hact]
  · rw [if_neg (hlast 3 (by decide) (by decide)), if_pos hact]
  · rw [if_pos hact]

/-- The column loop of a row yields the sentinel exactly when it started with
the sentinel and no reading of the row is active. -/
theorem colsKey_eq_NOPRESS (w : Wiring) (cur : Nat → Nat) (i : Nat) (hi : i < NROWS)
    (c : Char) :
    colsKey w cur i c = NOPRESS
      ↔ (c = NOPRESS ∧ ∀ j, j < NCOLS → w cur (colPin j) ≠ ACTIVE) := by
  have k0 := keyAt_ne_NOPRESS i 0 hi (by decide)
  have k1 := keyAt_ne_NOPRESS i 1 hi (by decide)
  have k2 := keyAt_ne_NOPRESS i 2 hi (by decide)
  have k3 := keyAt_ne_NOPRESS i 3 hi (by decide)
  simp only [colsKey]
  split_ifs with a3 a2 a1 a0
  · exact ⟨fun e => absurd e k3, fun e => absurd a3 (e.2 3 (by decide))⟩
  · exact ⟨fun e => absurd e k2, fun e => absurd a2 (e.2 2 (by decide))⟩
  · exact ⟨fun e => absurd e k1, fun e => absurd a1 (e.2 1 (by decide))⟩
  · exact ⟨fun e => absurd e k0, fun e => absurd a0 (e.2 0 (by decide))⟩
  · refine ⟨fun e => ⟨e, ?_⟩, fun e => e.1⟩
    intro j hj
    simp only [NCOLS] at hj
    interval_cases j <;> assumption

/-- The key returned by a scan is the keymap entry of an active reading after
which, in row-major order, no reading is active. -/
theorem scan_last_active (w : Wiring) (g : Hw) (i j : Nat)
    (hi : i < NROWS) (hj : j < NCOLS) (hact : reading w g.level i j = ACTIVE)
    (hlast : ∀ i2 j2, i2 < NROWS → j2 < NCOLS → (i < i2 ∨ (i = i2 ∧ j < j2)) →
      reading w g.level i2 j2 ≠ ACTIVE) :
    (scan_keypad w g).1 = keyAt i j := by
  rw [scan_keypad_eq w g]
  have hrow : ∀ c, colsKey w (drive (levelsBefore g.level i) i) i c = keyAt i j := fun c =>
    colsKey_last w _ i c j hj hact
      (fun j2 hj2 hlt => hlast i j2 hi hj2 (Or.inr ⟨rfl, hlt⟩))
  have hlater : ∀ i2, i2 < NROWS → i < i2 →
      ∀ c, colsKey w (drive (levelsBefore g.level i2) i2) i2 c = c :=
    fun i2 hi2 hlt c =>
      colsKey_none w _ i2 c (fun j2 hj2 => hlast i2 j2 hi2 hj2 (Or.inl hlt))
  simp only [NROWS] at hi hlater
  interval_cases i
  · rw [hlater 3 (by decide) (by decide), hlater 2 (by decide) (by decide),
      hlater 1 (by decide) (by decide), hrow]
  · rw [hlater 3 (by decide) (by decide), hlater 2 (by decide) (by decide), hrow]
  · rw [hlater 3 (by decide) (by decide), hrow]
  · rw [hrow]

/-- A scan returns the sentinel exactly when no reading is active. -/
theorem scan_nokey_iff (w : Wiring) (g : Hw) :
    (scan_keypad w g).1 = NOPRESS
      ↔ ∀ i j, i < NROWS → j < NCOLS → reading w g.level i j ≠ ACTIVE := by
  rw [scan_keypad_eq w g]
  simp only
  rw [colsKey_eq_NOPRESS w _ 3 (by decide), colsKey_eq_NOPRESS w _ 2 (by decide),
    colsKey_eq_NOPRESS w _ 1 (by decide), colsKey_eq_NOPRESS w _ 0 (by decide)]
  constructor
  · rintro ⟨⟨⟨⟨_, r0⟩, r1⟩, r2⟩, r3⟩ i j hi hj
    simp only [NROWS] at hi
    interval_cases i
    · exact r0 j hj
    · exact r1 j hj
    · exact r2 j hj
    · exact r3 j hj
  · intro hall
    exact ⟨⟨⟨⟨rfl, fun j hj => hall 0 j (by decide) hj⟩, fun j hj => hall 1 j (by decide) hj⟩,
      fun j hj => hall 2 j (by decide) hj⟩, fun j hj => hall 3 j (by decide) hj⟩

/-- Started with every row inactive, a reading is taken with the scanned row
as the only change to the initial levels. -/
theorem reading_inactive (w : Wiring) (lv : Nat → Nat) (h : rowsInactive lv) (i j : Nat)
    (hi : i < NROWS) : reading w lv i j = w (drive lv i) (colPin j) := by
  simp only [reading]
  rw [levelsBefore_inactive lv h i (Nat.le_of_lt hi)]

/-- The accesses of a scan started with every row inactive. -/
theorem scanAccesses_eq (w : Wiring) (g : Hw) (h : rowsInactive g.level) :
    scanAccesses w g
      = rowAccesses g.level 0 ++ (rowAccesses g.level 1
          ++ (rowAccesses g.level 2 ++ rowAccesses g.level 3)) := by
  simp only [scanAccesses]
  rw [scan_keypad_eq_inactive w g h]
  simp

/-- Every access of a row iteration started with every row inactive sees
either that row alone driven active or the initial levels. -/
theorem rowAccesses_levels (lv : Nat → Nat) (h : rowsInactive lv) (i : Nat) (hi : i < NROWS)
    (a : Access) (ha : a ∈ rowAccesses lv i) : a.levels = drive lv i ∨ a.levels = lv := by
  have hr := restore_inactive lv i (h i hi)
  simp only [rowAccesses, List.mem_cons, List.mem_singleton, List.not_mem_nil, or_false] at ha
  rcases ha with e | e | e | e | e | e <;> subst e
  · exact Or.inl rfl
  · exact Or.inl rfl
  · exact Or.inl rfl
  · exact Or.inl rfl
  · exact Or.inl rfl
  · exact Or.inr hr

/-- The wiring `singleKey i j` reads column `j` active exactly when row `i` is
driven active. -/
theorem singleKey_col (i j : Nat) (lv : Nat → Nat) :
    singleKey i j lv (colPin j) = ACTIVE ↔ lv (rowPin i) = ACTIVE := by
  simp [singleKey]

/-- The wiring `singleKey i j` reads every other column inactive. -/
theorem singleKey_other (i j : Nat) (hj : j < NCOLS) (lv : Nat → Nat) (j2 : Nat)
    (hj2 : j2 < NCOLS) (hne : j2 ≠ j) : singleKey i j lv (colPin j2) ≠ ACTIVE := by
  simp only [NCOLS] at hj hj2
  interval_cases j <;> interval_cases j2 <;>
    simp_all [singleKey, colPin, col_pins, ACTIVE, notLevel]

/-- Every table of readings is produced by some wiring, namely `wiringOf`. -/
theorem reading_wiringOf (lv : Nat → Nat) (a : Nat → Nat → Nat) (i j : Nat)
    (hi : i < NROWS) (hj : j < NCOLS) : reading (wiringOf a) lv i j = a i j := by
  simp only [NROWS, NCOLS] at hi hj
  interval_cases i <;> interval_cases j <;>
    simp [reading, wiringOf, firstActiveRow, colIndex, levelsBefore, drive, restore, rowPin,
      colPin, row_pins, col_pins, ACTIVE, notLevel]

/-! ## The scan: properties -/

/-- C7: with every row inactive at the start and a wiring in which column `j`
reads active exactly while row `i` is driven active and every other column
always reads inactive (the only closed switch is the one at `(i, j)`),
`scan_keypad` returns `keypad_array[i][j]`, and every row is inactive on
return. -/
theorem scan_single_key (w : Wiring) (g : Hw) (i j : Nat) (hi : i < NROWS) (hj : j < NCOLS)
    (hrows : rowsInactive g.level)
    (hcol : ∀ lv, w lv (colPin j) = ACTIVE ↔ lv (rowPin i) = ACTIVE)
    (hother : ∀ lv j2, j2 < NCOLS → j2 ≠ j → w lv (colPin j2) ≠ ACTIVE) :
    (scan_keypad w g).1 = keyAt i j ∧ rowsInactive (scan_keypad w g).2.level := by
  constructor
  · apply scan_last_active w g i j hi hj
    · rw [reading_inactive w g.level hrows i j hi]
      exact (hcol _).mpr ((drive_row g.level hrows i i hi hi).mpr rfl)
    · intro i2 j2 hi2 hj2 hlt
      rw [reading_inactive w g.level hrows i2 j2 hi2]
      by_cases hjj : j2 = j
      · subst hjj
        intro hact
        have e : i = i2 := (drive_row g.level hrows i2 i hi2 hi).mp ((hcol _).mp hact)
        omega
      · exact hother _ j2 hj2 hjj
  · rw [scan_keypad_eq_inactive w g hrows]
    exact hrows

/-- C7 witness: after `init_keypad`, with the only closed switch at row 2,
column 3, the scan returns `keypad_array[2][3]`, which is `'C'`. -/
theorem scan_single_key_witness :
    keyAt 2 3 = 'C'
      ∧ (scan_keypad (singleKey 2 3) (init_keypad Hw.idle)).1 = keyAt 2 3
      ∧ rowsInactive (scan_keypad (singleKey 2 3) (init_keypad Hw.idle)).2.level :=
  ⟨by decide,
    scan_single_key (singleKey 2 3) (init_keypad Hw.idle) 2 3 (by decide) (by decide)
      (init_keypad_rows Hw.idle) (singleKey_col 2 3)
      (fun lv j2 hj2 hne => singleKey_other 2 3 (by decide) lv j2 hj2 hne)⟩

/-- C8: for every wiring `w` and every starting state of the pins, with
`reading w g.level i j` the level read on column `j` while row `i` is driven,
`scan_keypad` returns `NOPRESS` if and only if no reading is active, and
returns `keypad_array[i][j]` for the pair `(i, j)` whose reading is active and
after which, in row-major order, no reading is active.  Every assignment `a`
of the sixteen readings occurs: some wiring reads `a i j` at each `(i, j)`. -/
theorem last_scanned_wins (w : Wiring) (g : Hw) :
    ((scan_keypad w g).1 = NOPRESS
        ↔ ∀ i j, i < NROWS → j < NCOLS → reading w g.level i j ≠ ACTIVE)
      ∧ (∀ i j, i < NROWS → j < NCOLS → reading w g.level i j = ACTIVE →
          (∀ i2 j2, i2 < NROWS → j2 < NCOLS → (i < i2 ∨ (i = i2 ∧ j < j2)) →
            reading w g.level i2 j2 ≠ ACTIVE) →
          (scan_keypad w g).1 = keyAt i j)
      ∧ (∀ a : Nat → Nat → Nat, ∃ w2 : Wiring,
          ∀ i j, i < NROWS → j < NCOLS → reading w2 g.level i j = a i j) :=
  ⟨scan_nokey_iff w g, fun i j hi hj hact hlast => scan_last_active w g i j hi hj hact hlast,
    fun a => ⟨wiringOf a, fun i j hi hj => reading_wiringOf g.level a i j hi hj⟩⟩

/-- C9: `init_keypad` leaves every row pin at the inactive level, and a call
of `scan_keypad` that starts with every row inactive returns with every row
inactive and with the same level driven on every pin as before the call. -/
theorem rows_restored (w : Wiring) (g0 g : Hw) (h : rowsInactive g.level) :
    rowsInactive (init_keypad g0).level
      ∧ rowsInactive (scan_keypad w g).2.level
      ∧ (scan_keypad w g).2.level = g.level := by
  refine ⟨init_keypad_rows g0, ?_, ?_⟩
  · rw [scan_keypad_eq_inactive w g h]
    exact h
  · rw [scan_keypad_eq_inactive w g h]

/-- C9 witness: a scan right after `init_keypad`, with every column reading
active. -/
theorem rows_restored_witness :
    rowsInactive (init_keypad Hw.idle).level
      ∧ rowsInactive (scan_keypad (fun _ _ => ACTIVE) (init_keypad Hw.idle)).2.level
      ∧ (scan_keypad (fun _ _ => ACTIVE) (init_keypad Hw.idle)).2.level
          = (init_keypad Hw.idle).level :=
  rows_restored (fun _ _ => ACTIVE) Hw.idle (init_keypad Hw.idle) (init_keypad_rows Hw.idle)

/-- C10: in a call of `scan_keypad` that starts with every row inactive there
are `NROWS * NCOLS` column reads; the `n`-th of them (counting from 0) reads
column `n % NCOLS` at a moment when a row pin is at the active level exactly
if it is row `n / NCOLS`, the row being scanned; and at no access of the call,
read or write, are two different rows active. -/
theorem one_active_row_per_read (w : Wiring) (g : Hw) (h : rowsInactive g.level) :
    (readsOf (scanAccesses w g)).length = NROWS * NCOLS
      ∧ (∀ n a, (readsOf (scanAccesses w g))[n]? = some a →
          a.pin = colPin (n % NCOLS)
            ∧ ∀ i, i < NROWS → (a.levels (rowPin i) = ACTIVE ↔ i = n / NCOLS))
      ∧ (∀ a, a ∈ scanAccesses w g → ∀ i1 i2, i1 < NROWS → i2 < NROWS →
          a.levels (rowPin i1) = ACTIVE → a.levels (rowPin i2) = ACTIVE → i1 = i2) := by
  have hreads : readsOf (scanAccesses w g)
      = [ { isRead := true, pin := colPin 0, levels := drive g.level 0 },
          { isRead := true, pin := colPin 1, levels := drive g.level 0 },
          { isRead := true, pin := colPin 2, levels := drive g.level 0 },
          { isRead := true, pin := colPin 3, levels := drive g.level 0 },
          { isRead := true, pin := colPin 0, levels := drive g.level 1 },
          { isRead := true, pin := colPin 1, levels := drive g.level 1 },
          { isRead := true, pin := colPin 2, levels := drive g.level 1 },
          { isRead := true, pin := colPin 3, levels := drive g.level 1 },
          { isRead := true, pin := colPin 0, levels := drive g.level 2 },
          { isRead := true, pin := colPin 1, levels := drive g.level 2 },
          { isRead := true, pin := colPin 2, levels := drive g.level 2 },
          { isRead := true, pin := colPin 3, levels := drive g.level 2 },
          { isRead := true, pin := colPin 0, levels := drive g.level 3 },
          { isRead := true, pin := colPin 1, levels := drive g.level 3 },
          { isRead := true, pin := colPin 2, levels := drive g.level 3 },
          { isRead := true, pin := colPin 3, levels := drive g.level 3 } ] := by
    rw [scanAccesses_eq w g h]
    simp [readsOf, rowAccesses, List.filter]
  refine ⟨?_, ?_, ?_⟩
  · rw [hreads]
    rfl
  · intro n a ha
    rw [hreads] at ha
    have hn : n < 16 := by
      by_contra hge
      rw [List.getElem?_eq_none (by simpa using hge)] at ha
      cases ha
    interval_cases n <;>
      (simp only [List.getElem?_cons_zero, List.getElem?_cons_succ, Option.some.injEq] at ha
       subst ha
       exact ⟨rfl, fun i hi => drive_row g.level h _ i (by decide) hi⟩)
  · intro a ha i1 i2 h1 h2 a1 a2
    rw [scanAccesses_eq w g h] at ha
    simp only [List.mem_append] at ha
    have hlev : ∃ i, i < NROWS ∧ (a.levels = drive g.level i ∨ a.levels = g.level) := by
      rcases ha with ha | ha | ha | ha
      · exact ⟨0, by decide, rowAccesses_levels g.level h 0 (by decide) a ha⟩
      · exact ⟨1, by decide, rowAccesses_levels g.level h 1 (by decide) a ha⟩
      · exact ⟨2, by decide, rowAccesses_levels g.level h 2 (by decide) a ha⟩
      · exact ⟨3, by decide, rowAccesses_levels g.level h 3 (by decide) a ha⟩
    obtain ⟨i, hi, e | e⟩ := hlev
    · rw [e] at a1 a2
      rw [(drive_row g.level h i i1 hi h1).mp a1, (drive_row g.level h i i2 hi h2).mp a2]
    · rw [e] at a1
      exact absurd a1 (rowsInactive_not_active g.level h i1 h1)

/-- C10 witness: a scan right after `init_keypad`, with the switch at row 2,
column 3 closed. -/
theorem one_active_row_per_read_witness :
    (readsOf (scanAccesses (singleKey 2 3) (init_keypad Hw.idle))).length = NROWS * NCOLS
      ∧ (∀ n a, (readsOf (scanAccesses (singleKey 2 3) (init_keypad Hw.idle)))[n]? = some a →
          a.pin = colPin (n % NCOLS)
            ∧ ∀ i, i < NROWS → (a.levels (rowPin i) = ACTIVE ↔ i = n / NCOLS))
      ∧ (∀ a, a ∈ scanAccesses (singleKey 2 3) (init_keypad Hw.idle) →
          ∀ i1 i2, i1 < NROWS → i2 < NROWS →
          a.levels (rowPin i1) = ACTIVE → a.levels (rowPin i2) = ACTIVE → i1 = i2) :=
  one_active_row_per_read (singleKey 2 3) (init_keypad Hw.idle) (init_keypad_rows Hw.idle)

/-! ## The debounce FSM: single steps -/

/-- C11: for every state and scan, a step that emits was taken in `Debounce`
with the scan equal to the candidate `last_key` (and the timer at the
threshold); it emits that candidate and ends in `Wait_for_release`.  A step in
`Wait_for_press` or `Wait_for_release` never emits; a step in `Debounce` whose
scan differs from the candidate never emits and, once the threshold has been
reached, moves to `Wait_for_press`. -/
theorem emission_rule (s : Fsm) (x : Char) :
    (∀ c, (step s x).2 = some c →
        s.state = State_t.Debounce ∧ x = s.last_key ∧ DEBOUNCE_TIME ≤ s.time
          ∧ c = s.last_key ∧ (step s x).1.state = State_t.Wait_for_release)
      ∧ (s.state = State_t.Wait_for_press ∨ s.state = State_t.Wait_for_release →
          (step s x).2 = none)
      ∧ (s.state = State_t.Debounce → x ≠ s.last_key →
          (step s x).2 = none
            ∧ (DEBOUNCE_TIME ≤ s.time → (step s x).1.state = State_t.Wait_for_press)) := by
  refine ⟨?_, ?_, ?_⟩
  · intro c hc
    cases hst : s.state with
    | Wait_for_press =>
      by_cases hx : x = NOPRESS <;> simp [step, hst, hx] at hc
    | Wait_for_release =>
      by_cases hx : x = NOPRESS <;> simp [step, hst, hx] at hc
    | Debounce =>
      by_cases ht : DEBOUNCE_TIME ≤ s.time
      · by_cases hx : x = s.last_key
        · simp [step, hst, ht, hx] at hc
          simp [step, hst, ht, hx, hc]
        · simp [step, hst, ht, hx] at hc
      · simp [step, hst, ht] at hc
  · intro hs
    rcases hs with hs | hs
    · by_cases hx : x = NOPRESS <;> simp [step, hs, hx]
    · by_cases hx : x = NOPRESS <;> simp [step, hs, hx]
  · intro hs hx
    by_cases ht : DEBOUNCE_TIME ≤ s.time
    · simp [step, hs, ht, hx]
    · simp [step, hs, ht]

/-- C12: in any `Wait_for_press` state, whatever its timer and candidate, a
key reading `k` gives `Debounce` with timer 0 and candidate `k` and emits
nothing; a `NOPRESS` reading leaves the state as it is, in `Wait_for_press`,
and emits nothing. -/
theorem wait_for_press_transition (s : Fsm) (hs : s.state = State_t.Wait_for_press)
    (k : Char) (hk : k ≠ NOPRESS) :
    step s k = ({ state := State_t.Debounce, last_key := k, time := 0 }, none)
      ∧ (step s NOPRESS).1.state = State_t.Wait_for_press
      ∧ (step s NOPRESS).1 = s
      ∧ (step s NOPRESS).2 = none := by
  rw [step_press s k hs hk, step_idle s hs]
  exact ⟨rfl, hs, rfl, rfl⟩

/-- C12 witness: a `Wait_for_press` state with a stale candidate `'A'` and
timer 40 reads `'7'`. -/
theorem wait_for_press_transition_witness :
    step { state := State_t.Wait_for_press, last_key := 'A', time := 40 } '7'
        = ({ state := State_t.Debounce, last_key := '7', time := 0 }, none)
      ∧ (step { state := State_t.Wait_for_press, last_key := 'A', time := 40 } NOPRESS).1.state
        = State_t.Wait_for_press
      ∧ (step { state := State_t.Wait_for_press, last_key := 'A', time := 40 } NOPRESS).1
        = { state := State_t.Wait_for_press, last_key := 'A', time := 40 }
      ∧ (step { state := State_t.Wait_for_press, last_key := 'A', time := 40 } NOPRESS).2
        = none :=
  wait_for_press_transition { state := State_t.Wait_for_press, last_key := 'A', time := 40 }
    rfl '7' (by decide)

/-- C14: for every state and scan, the step from `Wait_for_press` to `Debounce`
sets the timer to 0, every other step leaves the timer at least as large as it
was, a step in `Wait_for_release` leaves it unchanged, and so does a step in
`Wait_for_press` that stays in `Wait_for_press`. -/
theorem timer_discipline (s : Fsm) (x : Char) :
    ((s.state = State_t.Wait_for_press ∧ (step s x).1.state = State_t.Debounce) →
        (step s x).1.time = 0)
      ∧ (¬ (s.state = State_t.Wait_for_press ∧ (step s x).1.state = State_t.Debounce) →
          s.time ≤ (step s x).1.time)
      ∧ (s.state = State_t.Wait_for_release → (step s x).1.time = s.time)
      ∧ (s.state = State_t.Wait_for_press → (step s x).1.state = State_t.Wait_for_press →
          (step s x).1.time = s.time) := by
  cases hst : s.state with
  | Wait_for_press =>
    by_cases hx : x = NOPRESS <;> simp [step, hst, hx]
  | Wait_for_release =>
    by_cases hx : x = NOPRESS <;> simp [step, hst, hx]
  | Debounce =>
    by_cases ht : DEBOUNCE_TIME ≤ s.time
    · by_cases hx : x = s.last_key <;> simp [step, hst, ht, hx]
    · simp [step, hst, ht, LOOP_DELAY_MS]

/-! ## The debounce FSM: runs from the initial state -/

/-- A run extended by one reading is the run followed by one step. -/
theorem run_snoc (s : Fsm) (xs : List Char) (x : Char) :
    run s (xs ++ [x])
      = ((step (run s xs).1 x).1, (run s xs).2 ++ [(step (run s xs).1 x).2]) := by
  rw [run_append, run_cons, run_nil]

/-- The output of tick `n` of a run is the output of the step taken on the
reading `xs[n]` in the state reached by the first `n` readings. -/
theorem run_output_at (s : Fsm) (xs : List Char) (n : Nat) (o : Option Char)
    (h : (run s xs).2[n]? = some o) :
    ∃ x, xs[n]? = some x ∧ o = (step (run s (xs.take n)).1 x).2 := by
  induction xs generalizing s n with
  | nil => simp [run_nil] at h
  | cons y ys ih =>
    cases n with
    | zero =>
      simp only [run_cons, List.getElem?_cons_zero, Option.some.injEq] at h
      exact ⟨y, by simp, by rw [List.take_zero, run_nil, h]⟩
    | succ n =>
      simp only [run_cons, List.getElem?_cons_succ] at h
      obtain ⟨x, hx, ho⟩ := ih (step s y).1 n h
      exact ⟨x, by simpa using hx, by rw [List.take_succ_cons, run_cons]; exact ho⟩

/-- The timer bounds are kept by every step. -/
theorem step_timer_inv (s : Fsm) (x : Char)
    (h : 0 ≤ s.time ∧ s.time ≤ DEBOUNCE_TIME ∧ LOOP_DELAY_MS ∣ s.time) :
    0 ≤ (step s x).1.time ∧ (step s x).1.time ≤ DEBOUNCE_TIME
      ∧ LOOP_DELAY_MS ∣ (step s x).1.time := by
  obtain ⟨h0, h40, q, hq⟩ := h
  simp only [DEBOUNCE_TIME, LOOP_DELAY_MS] at *
  cases hst : s.state with
  | Wait_for_press =>
    by_cases hx : x = NOPRESS
    · simp only [step, hst, hx]
      simp
      exact ⟨h0, h40, q, hq⟩
    · simp [step, hst, hx]
  | Wait_for_release =>
    by_cases hx : x = NOPRESS
    · simp [step, hst, hx]
      exact ⟨h0, h40, q, hq⟩
    · simp [step, hst, hx]
      exact ⟨h0, h40, q, hq⟩
  | Debounce =>
    by_cases ht : (40 : Int) ≤ s.time
    · by_cases hx : x = s.last_key
      · simp [step, hst, DEBOUNCE_TIME, ht, hx]
        exact ⟨h0, h40, q, hq⟩
      · simp [step, hst, DEBOUNCE_TIME, ht, hx]
        exact ⟨h0, h40, q, hq⟩
    · simp only [step, hst, DEBOUNCE_TIME, ht, LOOP_DELAY_MS, decide_False, Bool.false_eq_true,
        if_false]
      exact ⟨by omega, by omega, q + 1, by omega⟩

/-- The timer bounds are kept by every run. -/
theorem run_timer_inv (xs : List Char) (s : Fsm)
    (h : 0 ≤ s.time ∧ s.time ≤ DEBOUNCE_TIME ∧ LOOP_DELAY_MS ∣ s.time) :
    0 ≤ (run s xs).1.time ∧ (run s xs).1.time ≤ DEBOUNCE_TIME
      ∧ LOOP_DELAY_MS ∣ (run s xs).1.time := by
  induction xs generalizing s with
  | nil => exact h
  | cons x xs ih =>
    rw [run_cons]
    exact ih (step s x).1 (step_timer_inv s x h)

/-- A run from the initial state that ends in `Debounce` entered it from
`Wait_for_press` on a key reading `k`, its candidate, and has since taken at
most four ticks, each of which added `LOOP_DELAY_MS` to the timer. -/
theorem debounce_origin (pre : List Char)
    (h : (run Fsm.init pre).1.state = State_t.Debounce) :
    ∃ p0 k mids, pre = p0 ++ k :: mids ∧ mids.length ≤ 4
      ∧ (run Fsm.init pre).1.time = 10 * (mids.length : Int)
      ∧ (run Fsm.init p0).1.state = State_t.Wait_for_press
      ∧ k ≠ NOPRESS ∧ (run Fsm.init pre).1.last_key = k := by
  induction pre using List.reverseRecOn with
  | nil => simp [run_nil, Fsm.init] at h
  | append_singleton l a ih =>
    rw [run_snoc] at h ⊢
    simp only at h ⊢
    cases hst : (run Fsm.init l).1.state with
    | Wait_for_press =>
      by_cases ha : a = NOPRESS
      · rw [ha, step_idle _ hst] at h
        rw [hst] at h
        cases h
      · rw [step_press _ a hst ha]
        exact ⟨l, a, [], rfl, by simp, by simp, hst, ha, rfl⟩
    | Wait_for_release =>
      by_cases ha : a = NOPRESS
      · rw [ha, step_release _ hst] at h
        cases h
      · rw [step_held _ a hst ha, hst] at h
        cases h
    | Debounce =>
      obtain ⟨p0, k, mids, hl, hlen, htime, hp0, hk, hlast⟩ := ih hst
      by_cases ht : (run Fsm.init l).1.time < DEBOUNCE_TIME
      · rw [step_debounce_wait _ a hst ht]
        refine ⟨p0, k, mids ++ [a], by rw [hl]; simp, ?_, ?_, hp0, hk, hlast⟩
        · rw [htime] at ht
          simp only [DEBOUNCE_TIME] at ht
          simp only [List.length_append, List.length_singleton]
          omega
        · simp only [htime, LOOP_DELAY_MS, List.length_append, List.length_singleton]
          push_cast
          ring
      · have ht2 : DEBOUNCE_TIME ≤ (run Fsm.init l).1.time := not_lt.mp ht
        by_cases hx : a = (run Fsm.init l).1.last_key
        · rw [hx, step_debounce_confirm _ hst ht2] at h
          cases h
        · rw [step_debounce_reject _ a hst ht2 hx] at h
          cases h

/-- A step that emits was taken in `Debounce` at the threshold, on a reading
equal to the candidate, which is what it emits. -/
theorem step_emits (s : Fsm) (x c : Char) (h : (step s x).2 = some c) :
    s.state = State_t.Debounce ∧ DEBOUNCE_TIME ≤ s.time ∧ s.last_key = c ∧ x = c := by
  cases hst : s.state with
  | Wait_for_press =>
    by_cases hx : x = NOPRESS <;> simp [step, hst, hx] at h
  | Wait_for_release =>
    by_cases hx : x = NOPRESS <;> simp [step, hst, hx] at h
  | Debounce =>
    by_cases ht : DEBOUNCE_TIME ≤ s.time
    · by_cases hx : x = s.last_key
      · simp [step, hst, ht, hx] at h
        exact ⟨rfl, ht, h, by rw [hx, h]⟩
      · simp [step, hst, ht, hx] at h
    · simp [step, hst, ht] at h

/-- A run whose next step emits `c` ends with the reading `c` that entered
`Debounce` from `Wait_for_press`, followed by exactly four more readings. -/
theorem emit_origin (pre : List Char) (x c : Char)
    (h : (step (run Fsm.init pre).1 x).2 = some c) :
    x = c ∧ ∃ p0 mids, pre = p0 ++ c :: mids ∧ mids.length = 4
      ∧ (run Fsm.init p0).1.state = State_t.Wait_for_press ∧ c ≠ NOPRESS := by
  obtain ⟨hst, ht, hlast, hx⟩ := step_emits _ x c h
  obtain ⟨p0, k, mids, hpre, hlen, htime, hp0, hk, hk2⟩ := debounce_origin pre hst
  have hkc : k = c := by rw [← hk2, hlast]
  subst hkc
  refine ⟨hx, p0, mids, hpre, ?_, hp0, hk⟩
  rw [htime] at ht
  simp only [DEBOUNCE_TIME] at ht
  omega

/-- C13: in every run from the initial state, if tick `n` emits `c`, then the
tick `m = n - 5` found the FSM in `Wait_for_press`, read `c` and entered
`Debounce` with candidate `c` and timer 0, and the FSM stayed in `Debounce`
until tick `n`; so the candidate was recorded at least
`DEBOUNCE_TIME / LOOP_DELAY_MS` ticks, that is at least `DEBOUNCE_TIME` ms of
polling time, before its confirmation. -/
theorem no_premature_confirmation (xs : List Char) (n : Nat) (c : Char)
    (h : (run Fsm.init xs).2[n]? = some (some c)) :
    ∃ m, m + 5 = n
      ∧ DEBOUNCE_TIME / LOOP_DELAY_MS ≤ (n : Int) - (m : Int)
      ∧ DEBOUNCE_TIME ≤ LOOP_DELAY_MS * ((n : Int) - (m : Int))
      ∧ (run Fsm.init (xs.take m)).1.state = State_t.Wait_for_press
      ∧ xs[m]? = some c ∧ c ≠ NOPRESS
      ∧ (run Fsm.init (xs.take (m + 1))).1
          = { state := State_t.Debounce, last_key := c, time := 0 }
      ∧ (∀ t, m < t → t ≤ n → (run Fsm.init (xs.take t)).1.state = State_t.Debounce) := by
  obtain ⟨x, hx, ho⟩ := run_output_at Fsm.init xs n (some c) h
  obtain ⟨_, p0, mids, hpre, hlen, hp0, hc⟩ := emit_origin (xs.take n) x c ho.symm
  have hn : n < xs.length := by
    rcases List.getElem?_eq_some.mp hx with ⟨hlt, _⟩
    exact hlt
  have hnlen : p0.length + 5 = n := by
    have e := congrArg List.length hpre
    simp only [List.length_take, List.length_append, List.length_cons, hlen] at e
    omega
  have htake : ∀ t, t ≤ n → xs.take t = (p0 ++ c :: mids).take t := by
    intro t ht
    rw [← hpre, List.take_take, Nat.min_eq_left ht]
  have hstart : ∀ j, j ≤ 4 → (run Fsm.init (xs.take (p0.length + (j + 1)))).1
      = { state := State_t.Debounce, last_key := c, time := 10 * (j : Int) } := by
    intro j hj
    rw [htake _ (by omega), List.take_append, List.take_succ_cons, run_append, run_cons,
      step_press _ c hp0 hc]
    simp only
    rw [run_debounce_ticks c (mids.take j) (by rw [List.length_take]; omega)]
    simp only [List.length_take, hlen, Nat.min_eq_left hj]
  refine ⟨p0.length, hnlen, ?_, ?_, ?_, ?_, hc, ?_, ?_⟩
  · rw [← hnlen]
    simp only [DEBOUNCE_TIME, LOOP_DELAY_MS]
    push_cast
    omega
  · rw [← hnlen]
    simp only [DEBOUNCE_TIME, LOOP_DELAY_MS]
    push_cast
    omega
  · rw [htake _ (by omega), List.take_left]
    exact hp0
  · rw [← List.getElem?_take_of_lt (show p0.length < n by omega), hpre,
      List.getElem?_append_right (le_refl _)]
    simp
  · have e := hstart 0 (by decide)
    simpa using e
  · intro t ht1 ht2
    obtain ⟨j, rfl⟩ : ∃ j, t = p0.length + (j + 1) := ⟨t - p0.length - 1, by omega⟩
    rw [hstart j (by omega)]

/-- C13 witness: `'5'` read on six consecutive ticks is confirmed on tick 5,
having been recorded on tick 0. -/
theorem no_premature_confirmation_witness :
    (run Fsm.init (List.replicate 6 '5')).2[5]? = some (some '5')
      ∧ ∃ m : Nat, m + 5 = 5
        ∧ DEBOUNCE_TIME / LOOP_DELAY_MS ≤ ((5 : Nat) : Int) - (m : Int)
        ∧ DEBOUNCE_TIME ≤ LOOP_DELAY_MS * (((5 : Nat) : Int) - (m : Int))
        ∧ (run Fsm.init ((List.replicate 6 '5').take m)).1.state = State_t.Wait_for_press
        ∧ (List.replicate 6 '5')[m]? = some '5' ∧ '5' ≠ NOPRESS
        ∧ (run Fsm.init ((List.replicate 6 '5').take (m + 1))).1
            = { state := State_t.Debounce, last_key := '5', time := 0 }
        ∧ (∀ t, m < t → t ≤ 5 →
            (run Fsm.init ((List.replicate 6 '5').take t)).1.state = State_t.Debounce) :=
  ⟨by decide, no_premature_confirmation (List.replicate 6 '5') 5 '5' (by decide)⟩

/-- C17: from any `Wait_for_press` state, two streams that start with the same
key reading `k` (which enters `Debounce`), have arbitrary readings on the next
four ticks, and agree on the reading `x` of the fifth tick after the start
(the first tick whose threshold test is true) give the same output on every
tick and the same state afterwards. -/
theorem window_readings_ignored (s : Fsm) (hs : s.state = State_t.Wait_for_press)
    (k : Char) (hk : k ≠ NOPRESS) (mid1 mid2 : List Char)
    (h1 : mid1.length = 4) (h2 : mid2.length = 4) (x : Char) :
    run s (k :: (mid1 ++ [x])) = run s (k :: (mid2 ++ [x])) := by
  rw [run_cons, run_cons, step_press s k hs hk, run_append, run_append,
    run_debounce_window k mid1 h1, run_debounce_window k mid2 h2]

/-- C17 witness: after `'1'`, a steady window and a noisy window, both
followed by `'1'`. -/
theorem window_readings_ignored_witness :
    run Fsm.init ('1' :: (['1', '1', '1', '1'] ++ ['1']))
      = run Fsm.init ('1' :: (['2', NOPRESS, '3', '1'] ++ ['1'])) :=
  window_readings_ignored Fsm.init rfl '1' (by decide) ['1', '1', '1', '1']
    ['2', NOPRESS, '3', '1'] rfl rfl '1'

/-- C18: in every state reached from the initial state, for any scan stream,
the timer satisfies `0 ≤ time ≤ DEBOUNCE_TIME` and is a multiple of
`LOOP_DELAY_MS`; in particular `time + LOOP_DELAY_MS` lies within the range of
a 32-bit `int`, so the accumulation cannot overflow. -/
theorem timer_bounded (xs : List Char) :
    0 ≤ (run Fsm.init xs).1.time
      ∧ (run Fsm.init xs).1.time ≤ DEBOUNCE_TIME
      ∧ LOOP_DELAY_MS ∣ (run Fsm.init xs).1.time
      ∧ -(2 : Int) ^ 31 ≤ (run Fsm.init xs).1.time + LOOP_DELAY_MS
      ∧ (run Fsm.init xs).1.time + LOOP_DELAY_MS ≤ (2 : Int) ^ 31 - 1 := by
  obtain ⟨h0, h40, hd⟩ :=
    run_timer_inv xs Fsm.init ⟨le_refl _, by decide, Dvd.intro_left 0 rfl⟩
  refine ⟨h0, h40, hd, ?_, ?_⟩
  · simp only [DEBOUNCE_TIME, LOOP_DELAY_MS] at *
    omega
  · simp only [DEBOUNCE_TIME, LOOP_DELAY_MS] at *
    omega

/-! ## Configuration and the loop on the pins -/

/-- C15: `row_pins` and `col_pins` each have length 4, which is `NROWS` and
`NCOLS`, the keymap has `NROWS` rows of `NCOLS` characters each, and no pin
occurs in both `row_pins` and `col_pins`; the latter holds for every
numbering of the `GPIO_NUM_n` names that gives different names different
numbers. -/
theorem configuration_invariants :
    row_pins.length = 4 ∧ col_pins.length = 4 ∧ NROWS = 4 ∧ NCOLS = 4
      ∧ row_pins.length = NROWS ∧ col_pins.length = NCOLS
      ∧ keypad_array.length = NROWS ∧ (∀ r, r ∈ keypad_array → r.length = NCOLS)
      ∧ (∀ p, p ∈ row_pins → p ∉ col_pins)
      ∧ (∀ num : Nat → Nat, Function.Injective num →
          ∀ p, p ∈ row_pins.map num → p ∉ col_pins.map num) := by
  have hdisj : ∀ p, p ∈ row_pins → p ∉ col_pins := by decide
  refine ⟨rfl, rfl, rfl, rfl, rfl, rfl, rfl, by decide, hdisj, ?_⟩
  intro num hinj p hr hc
  obtain ⟨a, ha, hap⟩ := List.mem_map.mp hr
  obtain ⟨b, hb, hbp⟩ := List.mem_map.mp hc
  have hab : a = b := hinj (hap.trans hbp.symm)
  subst hab
  exact hdisj a ha hb

/-- Every entry of the keymap is one of its characters. -/
theorem keyAt_mem (i j : Nat) (hi : i < NROWS) (hj : j < NCOLS) : keyAt i j ∈ keymapKeys := by
  simp only [NROWS, NCOLS] at hi hj
  interval_cases i <;> interval_cases j <;> decide

/-- The column loop turns a sentinel or keymap character into a sentinel or
keymap character. -/
theorem colsKey_mem (w : Wiring) (cur : Nat → Nat) (i : Nat) (hi : i < NROWS) (c : Char)
    (hc : c = NOPRESS ∨ c ∈ keymapKeys) :
    colsKey w cur i c = NOPRESS ∨ colsKey w cur i c ∈ keymapKeys := by
  simp only [colsKey]
  split_ifs
  · exact Or.inr (keyAt_mem i 3 hi (by decide))
  · exact Or.inr (keyAt_mem i 2 hi (by decide))
  · exact Or.inr (keyAt_mem i 1 hi (by decide))
  · exact Or.inr (keyAt_mem i 0 hi (by decide))
  · exact hc

/-- A scan returns the sentinel or a character of the keymap. -/
theorem scan_keypad_key (w : Wiring) (g : Hw) :
    (scan_keypad w g).1 = NOPRESS ∨ (scan_keypad w g).1 ∈ keymapKeys := by
  rw [scan_keypad_eq w g]
  exact colsKey_mem w _ 3 (by decide) _ (colsKey_mem w _ 2 (by decide) _
    (colsKey_mem w _ 1 (by decide) _ (colsKey_mem w _ 0 (by decide) _ (Or.inl rfl))))

/-- On a sentinel or keymap reading, a step keeps the candidate of `Debounce`
inside the keymap and emits only keymap characters. -/
theorem step_candidate_inv (s : Fsm) (x : Char) (hx : x = NOPRESS ∨ x ∈ keymapKeys)
    (hinv : s.state = State_t.Debounce → s.last_key ∈ keymapKeys) :
    ((step s x).1.state = State_t.Debounce → (step s x).1.last_key ∈ keymapKeys)
      ∧ (∀ c, (step s x).2 = some c → c ∈ keymapKeys) := by
  constructor
  · intro hd
    cases hst : s.state with
    | Wait_for_press =>
      by_cases hn : x = NOPRESS
      · rw [hn, step_idle s hst, hst] at hd
        cases hd
      · rw [step_press s x hst hn]
        rcases hx with hx | hx
        · exact absurd hx hn
        · exact hx
    | Wait_for_release =>
      by_cases hn : x = NOPRESS
      · rw [hn, step_release s hst] at hd
        cases hd
      · rw [step_held s x hst hn, hst] at hd
        cases hd
    | Debounce =>
      by_cases ht : s.time < DEBOUNCE_TIME
      · rw [step_debounce_wait s x hst ht]
        exact hinv hst
      · by_cases he : x = s.last_key
        · rw [he, step_debounce_confirm s hst (not_lt.mp ht)] at hd
          cases hd
        · rw [step_debounce_reject s x hst (not_lt.mp ht) he] at hd
          cases hd
  · intro c hc
    obtain ⟨hst, _, hlast, _⟩ := step_emits s x c hc
    rw [← hlast]
    exact hinv hst

/-- Along the loop on the pins the candidate of `Debounce` stays inside the
keymap and only keymap characters are emitted. -/
theorem loop_from_candidate_inv (ws : List Wiring) (st : Hw × Fsm)
    (hinv : st.2.state = State_t.Debounce → st.2.last_key ∈ keymapKeys) :
    ((loop_from st ws).1.2.state = State_t.Debounce →
        (loop_from st ws).1.2.last_key ∈ keymapKeys)
      ∧ (∀ c, some c ∈ (loop_from st ws).2 → c ∈ keymapKeys) := by
  induction ws generalizing st with
  | nil =>
    simp only [loop_from]
    exact ⟨hinv, fun c hc => by simp at hc⟩
  | cons w ws ih =>
    obtain ⟨h1, h2⟩ := step_candidate_inv st.2 (scan_keypad w st.1).1
      (scan_keypad_key w st.1) hinv
    obtain ⟨i1, i2⟩ := ih (loop_body w st).1 h1
    simp only [loop_from]
    refine ⟨i1, ?_⟩
    intro c hc
    rcases List.mem_cons.mp hc with hc | hc
    · exact h2 c hc.symm
    · exact i2 c hc

/-- With the switch at row 2, column 3 held closed for six iterations,
`app_main` confirms `'C'` on the sixth. -/
theorem app_main_confirms :
    (app_main Hw.idle (List.replicate 6 (singleKey 2 3))).2
      = [none, none, none, none, none, some 'C'] := by
  decide

/-- C16: in every state that `app_main` reaches, whatever the pins were at
start and whatever the wiring is on each iteration, a candidate held in
`Debounce` is one of the 16 keymap characters and not `NOPRESS`, and every
character emitted is one of the 16 keymap characters and not `NOPRESS`,
although the candidate starts as `NOPRESS`. -/
theorem candidate_is_key (g : Hw) (ws : List Wiring) :
    ((app_main g ws).1.2.state = State_t.Debounce →
        (app_main g ws).1.2.last_key ∈ keymapKeys
          ∧ (app_main g ws).1.2.last_key ≠ NOPRESS)
      ∧ (∀ c, some c ∈ (app_main g ws).2 → c ∈ keymapKeys ∧ c ≠ NOPRESS)
      ∧ keymapKeys.length = 16
      ∧ Fsm.init.last_key = NOPRESS := by
  obtain ⟨h1, h2⟩ := loop_from_candidate_inv ws (init_keypad g, Fsm.init)
    (fun h => by simp [Fsm.init] at h)
  refine ⟨fun hd => ⟨h1 hd, key_ne_NOPRESS (h1 hd)⟩,
    fun c hc => ⟨h2 c hc, key_ne_NOPRESS (h2 c hc)⟩, rfl, rfl⟩

end Keypad
